import Mathlib

/-!
Verification of the Text Editing Core of the `rust-code-editor` repository.

The buffer (`ropey::Rope`) is embedded as a `List Char`; all indices that the
source manipulates through `ropey` are character indices (`len_chars`,
`char_to_line`, `line_to_char`, `line`), so the embedding mirrors them on
`List Char`.  The editor state `RopeEditor` and its operations are translated
from `src/editor/rope_engine.rs`; the tokenizer is translated from
`src/editor/virtual_view.rs`.
-/

/-- Cursor position, from `src/editor/types.rs` (`CursorPosition`).
The source stores a character offset in the field named `byte_offset`:
every use site passes it to `ropey` char-indexed APIs. -/
structure CursorPosition where
  line : Nat
  column : Nat
  byte_offset : Nat
deriving DecidableEq, Repr

/-- Kind of a recorded edit, from `rope_engine.rs` (`ActionType`). -/
inductive ActionType where
  | Insert
  | Delete
deriving DecidableEq, Repr

/-- A reversible edit record, from `rope_engine.rs` (`EditorAction`). -/
structure EditorAction where
  action_type : ActionType
  position : Nat
  text : List Char
  cursor_before : CursorPosition
  cursor_after : CursorPosition
deriving DecidableEq, Repr

/-- Editor state, from `rope_engine.rs` (`RopeEditor`).  The rope is a list of
characters; the file path is kept as a character list. -/
structure RopeEditor where
  rope : List Char
  file_path : List Char
  is_modified : Bool
  cursor : CursorPosition
  undo_stack : List EditorAction
  redo_stack : List EditorAction
  clipboard : List Char
deriving DecidableEq, Repr

/-- `RopeEditor::new`. -/
def RopeEditor.new : RopeEditor :=
  { rope := [], file_path := [], is_modified := false,
    cursor := { line := 0, column := 0, byte_offset := 0 },
    undo_stack := [], redo_stack := [], clipboard := [] }

/-- `Rope::insert(pos, text)`: insert at a character index. -/
def rope_insert (r : List Char) (pos : Nat) (text : List Char) : List Char :=
  r.take pos ++ text ++ r.drop pos

/-- `Rope::remove(start..stop)`: remove a character range. -/
def rope_remove (r : List Char) (start stop : Nat) : List Char :=
  r.take start ++ r.drop stop

/-- `Rope::slice(start..stop).to_string()`: read a character range. -/
def rope_slice (r : List Char) (start stop : Nat) : List Char :=
  (r.drop start).take (stop - start)

/-- Character predicate for a newline, used by the line bookkeeping. -/
def is_nl (c : Char) : Bool := c == '\n'

/-- `Rope::len_lines()`: ropey counts one line per `'\n'` plus a final line. -/
def len_lines (r : List Char) : Nat := r.countP is_nl + 1

/-- `Rope::char_to_line(c)`: the line holding character index `c`; a `'\n'`
belongs to the line it terminates, and the end-of-buffer index belongs to the
last line. -/
def char_to_line (r : List Char) (c : Nat) : Nat := (r.take c).countP is_nl

/-- `Rope::line_to_char(i)`: the character index at which line `i` starts. -/
def line_to_char : List Char → Nat → Nat
  | _, 0 => 0
  | [], _ + 1 => 0
  | c :: rest, i + 1 =>
    if c = '\n' then 1 + line_to_char rest i else 1 + line_to_char rest (i + 1)

/-- The prefix of a character list up to and including its first `'\n'`
(the whole list when it holds no newline). -/
def take_line : List Char → List Char
  | [] => []
  | c :: rest => if c = '\n' then [c] else c :: take_line rest

/-- `Rope::line(i)`: the text of line `i`, trailing newline included. -/
def rope_line (r : List Char) (i : Nat) : List Char :=
  take_line (r.drop (line_to_char r i))

/-- `str::ends_with('\n')` on a line's text. -/
def ends_with_nl (l : List Char) : Bool := l.getLast? == some '\n'

/-- `RopeEditor::update_cursor_from_byte_offset`, as a function from the new
rope and the provisional offset to the recomputed cursor: the offset is
clamped to the buffer length and line/column are recomputed from it. -/
def cursor_from_offset (rope : List Char) (offset : Nat) : CursorPosition :=
  { line := char_to_line rope (min offset rope.length),
    column := min offset rope.length - line_to_char rope (char_to_line rope (min offset rope.length)),
    byte_offset := min offset rope.length }

/-- `RopeEditor::insert_text`. -/
def insert_text (ed : RopeEditor) (text : List Char) : RopeEditor :=
  if ed.cursor.byte_offset ≤ ed.rope.length ∧ text ≠ [] then
    { ed with
      rope := rope_insert ed.rope ed.cursor.byte_offset text,
      is_modified := true,
      cursor := cursor_from_offset (rope_insert ed.rope ed.cursor.byte_offset text)
        (ed.cursor.byte_offset + text.length),
      undo_stack :=
        { action_type := ActionType.Insert,
          position := ed.cursor.byte_offset,
          text := text,
          cursor_before := ed.cursor,
          cursor_after := cursor_from_offset (rope_insert ed.rope ed.cursor.byte_offset text)
            (ed.cursor.byte_offset + text.length) } :: ed.undo_stack,
      redo_stack := [] }
  else ed

/-- `RopeEditor::delete_range`. -/
def delete_range (ed : RopeEditor) (start stop : Nat) : RopeEditor :=
  if start < stop ∧ stop ≤ ed.rope.length then
    { ed with
      rope := rope_remove ed.rope start stop,
      is_modified := true,
      cursor := cursor_from_offset (rope_remove ed.rope start stop) start,
      undo_stack :=
        { action_type := ActionType.Delete,
          position := start,
          text := rope_slice ed.rope start stop,
          cursor_before := ed.cursor,
          cursor_after := cursor_from_offset (rope_remove ed.rope start stop) start } :: ed.undo_stack,
      redo_stack := [] }
  else ed

/-- `RopeEditor::backspace`. -/
def backspace (ed : RopeEditor) : RopeEditor :=
  if 0 < ed.cursor.byte_offset then
    delete_range ed (ed.cursor.byte_offset - 1) ed.cursor.byte_offset
  else ed

/-- `RopeEditor::delete`. -/
def delete (ed : RopeEditor) : RopeEditor :=
  if ed.cursor.byte_offset < ed.rope.length then
    delete_range ed ed.cursor.byte_offset (ed.cursor.byte_offset + 1)
  else ed

/-- `RopeEditor::insert_newline`. -/
def insert_newline (ed : RopeEditor) : RopeEditor := insert_text ed ['\n']

/-- `RopeEditor::paste`. -/
def paste (ed : RopeEditor) : RopeEditor :=
  if ed.clipboard ≠ [] then insert_text ed ed.clipboard else ed

/-- The rope transformation performed by `RopeEditor::undo` for one popped
action, defensive bounds checks included. -/
def undo_rope (rope : List Char) : EditorAction → List Char
  | ⟨ActionType.Insert, p, t, _, _⟩ =>
    if p + t.length ≤ rope.length then rope_remove rope p (p + t.length) else rope
  | ⟨ActionType.Delete, p, t, _, _⟩ =>
    if p ≤ rope.length then rope_insert rope p t else rope

/-- The rope transformation performed by `RopeEditor::redo` for one popped
action, defensive bounds checks included. -/
def redo_rope (rope : List Char) : EditorAction → List Char
  | ⟨ActionType.Insert, p, t, _, _⟩ =>
    if p ≤ rope.length then rope_insert rope p t else rope
  | ⟨ActionType.Delete, p, t, _, _⟩ =>
    if p + t.length ≤ rope.length then rope_remove rope p (p + t.length) else rope

/-- `RopeEditor::undo`: pops the undo stack, reverses the action on the rope,
restores `cursor_before`, pushes the action on the redo stack, marks the
buffer modified; returns whether an action was available. -/
def undo (ed : RopeEditor) : RopeEditor × Bool :=
  match ed.undo_stack with
  | [] => (ed, false)
  | action :: rest =>
    ({ ed with
        rope := undo_rope ed.rope action,
        cursor := action.cursor_before,
        undo_stack := rest,
        redo_stack := action :: ed.redo_stack,
        is_modified := true }, true)

/-- `RopeEditor::redo`: pops the redo stack, replays the action on the rope,
restores `cursor_after`, pushes the action on the undo stack, marks the
buffer modified; returns whether an action was available. -/
def redo (ed : RopeEditor) : RopeEditor × Bool :=
  match ed.redo_stack with
  | [] => (ed, false)
  | action :: rest =>
    ({ ed with
        rope := redo_rope ed.rope action,
        cursor := action.cursor_after,
        redo_stack := rest,
        undo_stack := action :: ed.undo_stack,
        is_modified := true }, true)

/-- `RopeEditor::copy_line`: the current line, trailing newline included,
goes to the clipboard. -/
def copy_line (ed : RopeEditor) : RopeEditor :=
  { ed with
    clipboard := rope_slice ed.rope (line_to_char ed.rope ed.cursor.line)
      (if ed.cursor.line + 1 < len_lines ed.rope
       then line_to_char ed.rope (ed.cursor.line + 1)
       else ed.rope.length) }

/-- `str::trim_end_matches(&['\n', '\r'])`: strip every trailing newline or
carriage return. -/
def trim_line_end (l : List Char) : List Char :=
  (l.reverse.dropWhile (fun c => c == '\n' || c == '\r')).reverse

/-- `RopeEditor::get_line`. -/
def get_line (ed : RopeEditor) (line_idx : Nat) : Option (List Char) :=
  if line_idx < len_lines ed.rope then
    some (trim_line_end (rope_line ed.rope line_idx))
  else none

/-- `RopeEditor::line_count`. -/
def line_count (ed : RopeEditor) : Nat := len_lines ed.rope

/-- `RopeEditor::total_chars`. -/
def total_chars (ed : RopeEditor) : Nat := ed.rope.length

/-- `RopeEditor::set_cursor`. -/
def set_cursor (ed : RopeEditor) (line column : Nat) : RopeEditor :=
  if line < len_lines ed.rope then
    { ed with
      cursor :=
        { line := line,
          column :=
            if (rope_line ed.rope line).length = 0 then 0
            else if ends_with_nl (rope_line ed.rope line) then
              min column ((rope_line ed.rope line).length - 1)
            else min column (rope_line ed.rope line).length,
          byte_offset := line_to_char ed.rope line +
            (if (rope_line ed.rope line).length = 0 then 0
             else if ends_with_nl (rope_line ed.rope line) then
               min column ((rope_line ed.rope line).length - 1)
             else min column (rope_line ed.rope line).length) } }
  else ed

/-- Outcome of one filesystem primitive; the embedding passes the outcomes of
the blocking I/O calls as explicit parameters. -/
inductive FsResult (α : Type) where
  | ok (val : α)
  | err
deriving DecidableEq

/-- `RopeEditor::save_file`: `File::create` then `Rope::write_to`, each
early-returning on failure via `?`; only full success clears the modified
flag.  The two I/O outcomes are parameters of the embedding. -/
def save_file (ed : RopeEditor) (create_res write_res : FsResult Unit) : RopeEditor × Bool :=
  match create_res with
  | FsResult.err => (ed, false)
  | FsResult.ok _ =>
    match write_res with
    | FsResult.err => (ed, false)
    | FsResult.ok _ => ({ ed with is_modified := false }, true)

/-- `RopeEditor::load_file`: `File::open` then `Rope::from_reader`, each
early-returning on failure before any field is assigned; success installs the
content, resets the cursor and clears both stacks.  The two I/O outcomes are
parameters of the embedding. -/
def load_file (ed : RopeEditor) (path : List Char) (open_res : FsResult Unit)
    (read_res : FsResult (List Char)) : RopeEditor × Bool :=
  match open_res with
  | FsResult.err => (ed, false)
  | FsResult.ok _ =>
    match read_res with
    | FsResult.err => (ed, false)
    | FsResult.ok content =>
      ({ ed with
          rope := content,
          file_path := path,
          is_modified := false,
          cursor := { line := 0, column := 0, byte_offset := 0 },
          undo_stack := [],
          redo_stack := [] }, true)

/-- One call of the two primitive mutators, for quantifying over edit
sequences. -/
inductive Edit where
  | ins (text : List Char)
  | del (start stop : Nat)

/-- Apply one primitive edit call. -/
def apply_edit (ed : RopeEditor) : Edit → RopeEditor
  | Edit.ins t => insert_text ed t
  | Edit.del s e => delete_range ed s e

/-- Apply a sequence of primitive edit calls, left to right. -/
def apply_edits (ed : RopeEditor) (edits : List Edit) : RopeEditor :=
  edits.foldl apply_edit ed

/-- Call `undo` up to `n` times, stopping as soon as it returns `false`. -/
def undo_upto (ed : RopeEditor) : Nat → RopeEditor
  | 0 => ed
  | n + 1 => if (undo ed).2 then undo_upto (undo ed).1 n else ed

/-- Repeatedly call `undo` until it returns `false`: each successful call
pops exactly one action, so the initial stack length bounds the successes. -/
def undo_all (ed : RopeEditor) : RopeEditor := undo_upto ed ed.undo_stack.length

/-- Call `redo` exactly `n` times. -/
def redo_n (ed : RopeEditor) : Nat → RopeEditor
  | 0 => ed
  | n + 1 => redo_n (redo ed).1 n

/-- One history call: an undo or a redo. -/
inductive URCall where
  | u
  | r

/-- Apply a sequence of undo/redo calls, left to right. -/
def apply_urs (ed : RopeEditor) : List URCall → RopeEditor
  | [] => ed
  | URCall.u :: rest => apply_urs (undo ed).1 rest
  | URCall.r :: rest => apply_urs (redo ed).1 rest

/-- Fragment classes of the display tokenizer, from `virtual_view.rs`
(`TokenClass`). -/
inductive TokenClass where
  | Keyword
  | String
  | Comment
  | Number
  | Function
  | Plain
deriving DecidableEq, Repr

/-- The single quote character. -/
def single_quote_char : Char := Char.ofNat 39

/-- The backtick character. -/
def backtick_char : Char := Char.ofNat 96

/-- `is_ident_start` from `tokenize_line`. -/
def is_ident_start (c : Char) : Bool := c.isAlpha || c == '_' || c == '$'

/-- `is_ident_part` from `tokenize_line`. -/
def is_ident_part (c : Char) : Bool := c.isAlphanum || c == '_' || c == '$'

/-- The character set of the number scanner in `tokenize_line`:
`is_ascii_hexdigit` plus the `x`/`b`/`o` markers, underscores and dots. -/
def num_char (c : Char) : Bool :=
  c.isDigit || ('a' ≤ c && c ≤ 'f') || ('A' ≤ c && c ≤ 'F') ||
  c == 'x' || c == 'b' || c == 'o' || c == '_' || c == '.'

/-- Rust `char::is_whitespace`, restricted to the ASCII whitespace characters
(the only ones the repository's line text feeds through the lookahead). -/
def rust_whitespace (c : Char) : Bool :=
  c == ' ' || c == '\t' || c == '\n' || c == '\x0b' || c == '\x0c' || c == '\r'

/-- The combined keyword array of `tokenize_line` (Rust/JS/TS/general),
duplicates kept as in the source. -/
def keyword_list : List String :=
  ["fn", "let", "mut", "struct", "enum", "impl", "trait", "pub", "use", "mod",
   "match", "if", "else", "while", "for", "in", "loop", "return", "break",
   "continue", "const", "static", "crate", "super", "self", "Self", "as",
   "where", "type", "move", "ref", "async", "await", "dyn", "unsafe",
   "function", "var", "const", "let", "class", "interface", "extends",
   "implements", "import", "from", "export", "return", "if", "else", "for",
   "while", "do", "switch", "case", "break", "continue", "new", "this",
   "super", "try", "catch", "finally", "throw", "await", "async", "yield",
   "typeof", "instanceof", "in", "of", "void", "delete",
   "true", "false", "null", "undefined"]

/-- The string scanner of `tokenize_line`: consume through the matching
unescaped closing quote or the end of the line; returns the consumed
characters and the remainder. -/
def scan_string (quote : Char) : List Char → Bool → List Char × List Char
  | [], _ => ([], [])
  | ch :: rest, escaped =>
    if escaped then
      ((ch :: (scan_string quote rest false).1), (scan_string quote rest false).2)
    else if ch = '\\' then
      ((ch :: (scan_string quote rest true).1), (scan_string quote rest true).2)
    else if ch = quote then ([ch], rest)
    else
      ((ch :: (scan_string quote rest false).1), (scan_string quote rest false).2)

/-- The tokenizer loop of `tokenize_line`, with an explicit fuel argument;
every iteration consumes at least one character, so fuel equal to the line
length reproduces the source loop exactly. -/
def tokenize_go : Nat → List Char → List (List Char × TokenClass)
  | 0, _ => []
  | _, [] => []
  | fuel + 1, c :: rest =>
    if c = '/' ∧ rest.head? = some '/' then
      [(c :: rest, TokenClass.Comment)]
    else if c = '#' then
      [(c :: rest, TokenClass.Comment)]
    else if c = '"' ∨ c = single_quote_char ∨ c = backtick_char then
      (c :: (scan_string c rest false).1, TokenClass.String) ::
        tokenize_go fuel (scan_string c rest false).2
    else if c.isDigit then
      ((c :: rest).takeWhile num_char, TokenClass.Number) ::
        tokenize_go fuel ((c :: rest).dropWhile num_char)
    else if is_ident_start c then
      (c :: rest.takeWhile is_ident_part,
        if keyword_list.contains (String.mk (c :: rest.takeWhile is_ident_part)) then
          TokenClass.Keyword
        else if ((rest.dropWhile is_ident_part).dropWhile rust_whitespace).head? = some '(' then
          TokenClass.Function
        else TokenClass.Plain) ::
        tokenize_go fuel (rest.dropWhile is_ident_part)
    else
      ([c], TokenClass.Plain) :: tokenize_go fuel rest

/-- `tokenize_line` from `virtual_view.rs`. -/
def tokenize_line (line : List Char) : List (List Char × TokenClass) :=
  tokenize_go line.length line

/-- An editor whose buffer holds `content` with the cursor placed at the
character offset `offset`, stacks and clipboard empty. -/
def mk_editor (content : List Char) (offset : Nat) : RopeEditor :=
  { rope := content, file_path := [], is_modified := false,
    cursor := cursor_from_offset content offset,
    undo_stack := [], redo_stack := [], clipboard := [] }

/-- Claim C7: tokenizing the line "let x = 5; // note" produces, in order, a
Keyword fragment "let", a Number fragment "5" and a final Comment fragment
"// note" covering the remainder of the line verbatim, and concatenating all
fragments reproduces the input line. -/
theorem tokenize_scenario_d :
    tokenize_line (String.toList "let x = 5; // note") =
      [(String.toList "let", TokenClass.Keyword),
       (String.toList " ", TokenClass.Plain),
       (String.toList "x", TokenClass.Plain),
       (String.toList " ", TokenClass.Plain),
       (String.toList "=", TokenClass.Plain),
       (String.toList " ", TokenClass.Plain),
       (String.toList "5", TokenClass.Number),
       (String.toList ";", TokenClass.Plain),
       (String.toList " ", TokenClass.Plain),
       (String.toList "// note", TokenClass.Comment)] ∧
    ((tokenize_line (String.toList "let x = 5; // note")).map Prod.fst).flatten =
      String.toList "let x = 5; // note" := by
  constructor
  · rfl
  · rfl

/-- Claim C8: `load_file` and `save_file` return an explicit success flag;
any failing I/O step leaves the whole in-memory editor unchanged; successful
save clears only the modified flag; successful load installs the content,
resets the cursor to (0,0,0) and clears both stacks. -/
theorem load_save_spec (ed : RopeEditor) (path content : List Char)
    (w : FsResult Unit) (rr : FsResult (List Char)) :
    save_file ed FsResult.err w = (ed, false) ∧
    save_file ed (FsResult.ok ()) FsResult.err = (ed, false) ∧
    save_file ed (FsResult.ok ()) (FsResult.ok ()) =
      ({ ed with is_modified := false }, true) ∧
    load_file ed path FsResult.err rr = (ed, false) ∧
    load_file ed path (FsResult.ok ()) FsResult.err = (ed, false) ∧
    load_file ed path (FsResult.ok ()) (FsResult.ok content) =
      ({ ed with
          rope := content,
          file_path := path,
          is_modified := false,
          cursor := { line := 0, column := 0, byte_offset := 0 },
          undo_stack := [],
          redo_stack := [] }, true) :=
  ⟨rfl, rfl, rfl, rfl, rfl, rfl⟩

/-- Inserting at a valid position grows the rope by the text length. -/
theorem rope_insert_length (r t : List Char) (p : Nat) (h : p ≤ r.length) :
    (rope_insert r p t).length = r.length + t.length := by
  simp [rope_insert]
  omega

/-- Removing the just-inserted span restores the original rope. -/
theorem rope_remove_insert (r t : List Char) (p : Nat) (h : p ≤ r.length) :
    rope_remove (rope_insert r p t) p (p + t.length) = r := by
  unfold rope_remove rope_insert
  have h1 : (r.take p).length = p := by rw [List.length_take]; omega
  rw [List.append_assoc, List.take_left' h1, ← List.append_assoc]
  have h2 : (r.take p ++ t).length = p + t.length := by
    rw [List.length_append, h1]
  rw [List.drop_left' h2]
  exact List.take_append_drop p r

/-- Reinserting the just-removed slice restores the original rope. -/
theorem rope_insert_remove (r : List Char) (s e : Nat) (h1 : s < e) (h2 : e ≤ r.length) :
    rope_insert (rope_remove r s e) s (rope_slice r s e) = r := by
  unfold rope_insert rope_remove rope_slice
  have hs : (r.take s).length = s := by rw [List.length_take]; omega
  rw [List.take_left' hs, List.drop_left' hs]
  have hd : r.drop e = (r.drop s).drop (e - s) := by
    rw [List.drop_drop]
    congr 1
    omega
  rw [hd, List.append_assoc, List.take_append_drop, List.take_append_drop]

/-- Removing a valid range shrinks the rope by the range width. -/
theorem rope_remove_length (r : List Char) (s e : Nat) (h1 : s ≤ e) (h2 : e ≤ r.length) :
    (rope_remove r s e).length = r.length - (e - s) := by
  simp [rope_remove]
  omega

/-- A valid slice has the width of its range. -/
theorem rope_slice_length (r : List Char) (s e : Nat) (h1 : s ≤ e) (h2 : e ≤ r.length) :
    (rope_slice r s e).length = e - s := by
  simp [rope_slice]
  omega

/-- Undoing an insert action on the post-insert rope restores the pre-insert
rope. -/
theorem undo_rope_insert_action (r t : List Char) (p : Nat) (cb ca : CursorPosition)
    (h : p ≤ r.length) :
    undo_rope (rope_insert r p t) ⟨ActionType.Insert, p, t, cb, ca⟩ = r := by
  simp only [undo_rope]
  rw [if_pos, rope_remove_insert r t p h]
  rw [rope_insert_length r t p h]
  omega

/-- Redoing an insert action on the pre-insert rope replays the insert. -/
theorem redo_rope_insert_action (r t : List Char) (p : Nat) (cb ca : CursorPosition)
    (h : p ≤ r.length) :
    redo_rope r ⟨ActionType.Insert, p, t, cb, ca⟩ = rope_insert r p t := by
  simp only [redo_rope]
  rw [if_pos h]

/-- Undoing a delete action on the post-delete rope restores the pre-delete
rope. -/
theorem undo_rope_delete_action (r : List Char) (s e : Nat) (cb ca : CursorPosition)
    (h1 : s < e) (h2 : e ≤ r.length) :
    undo_rope (rope_remove r s e) ⟨ActionType.Delete, s, rope_slice r s e, cb, ca⟩ = r := by
  simp only [undo_rope]
  rw [if_pos, rope_insert_remove r s e h1 h2]
  rw [rope_remove_length r s e (le_of_lt h1) h2]
  omega

/-- Redoing a delete action on the pre-delete rope replays the delete. -/
theorem redo_rope_delete_action (r : List Char) (s e : Nat) (cb ca : CursorPosition)
    (h1 : s < e) (h2 : e ≤ r.length) :
    redo_rope r ⟨ActionType.Delete, s, rope_slice r s e, cb, ca⟩ = rope_remove r s e := by
  simp only [redo_rope]
  rw [rope_slice_length r s e (le_of_lt h1) h2, if_pos]
  · congr 1
    omega
  · omega

/-- History well-formedness: `Hist stk s0 s` states that the action stack
`stk` was built by edits leading from the buffer/cursor pair `s0` to the
current pair `s`; each recorded action undoes one step backwards and redoes
it forwards exactly. -/
def Hist : List EditorAction → List Char × CursorPosition → List Char × CursorPosition → Prop
  | [], s0, s => s = s0
  | a :: rest, s0, s =>
    Hist rest s0 (undo_rope s.1 a, a.cursor_before) ∧
    redo_rope (undo_rope s.1 a) a = s.1 ∧ a.cursor_after = s.2

/-- Replay well-formedness: `RedoSeg stk s t` states that redoing the actions
of `stk` in order starting from the pair `s` ends exactly at the pair `t`. -/
def RedoSeg : List EditorAction → List Char × CursorPosition → List Char × CursorPosition → Prop
  | [], s, t => s = t
  | a :: rest, s, t => RedoSeg rest (redo_rope s.1 a, a.cursor_after) t

/-- Replay segments compose along list concatenation. -/
theorem redoseg_append : ∀ (xs ys : List EditorAction) (s m t : List Char × CursorPosition),
    RedoSeg xs s m → RedoSeg ys m t → RedoSeg (xs ++ ys) s t := by
  intro xs
  induction xs with
  | nil =>
    intro ys s m t h1 h2
    simp only [Hist, RedoSeg] at h1
    rw [List.nil_append, h1]
    exact h2
  | cons a rest ih =>
    intro ys s m t h1 h2
    simp only [RedoSeg] at h1 ⊢
    exact ih ys _ m t h1 h2

/-- A well-formed history stack, read bottom-up, replays from the original
state back to the current state. -/
theorem hist_redoseg : ∀ (stk : List EditorAction) (s0 s : List Char × CursorPosition),
    Hist stk s0 s → RedoSeg stk.reverse s0 s := by
  intro stk
  induction stk with
  | nil =>
    intro s0 s h
    simp only [Hist] at h
    simp only [List.reverse_nil, RedoSeg]
    rw [h]
  | cons a rest ih =>
    intro s0 s h
    obtain ⟨h1, h2, h3⟩ := h
    rw [List.reverse_cons]
    refine redoseg_append rest.reverse [a] s0 (undo_rope s.1 a, a.cursor_before) s (ih _ _ h1) ?_
    simp only [RedoSeg]
    rw [h2, h3]

/-- Unfolding `undo` when the undo stack is non-empty. -/
theorem undo_eq_cons (ed : RopeEditor) (a : EditorAction) (rest : List EditorAction)
    (h : ed.undo_stack = a :: rest) :
    undo ed =
      ({ ed with
          rope := undo_rope ed.rope a,
          cursor := a.cursor_before,
          undo_stack := rest,
          redo_stack := a :: ed.redo_stack,
          is_modified := true }, true) := by
  unfold undo
  rw [h]

/-- Unfolding `undo` when the undo stack is empty. -/
theorem undo_eq_nil (ed : RopeEditor) (h : ed.undo_stack = []) :
    undo ed = (ed, false) := by
  unfold undo
  rw [h]

/-- Unfolding `redo` when the redo stack is non-empty. -/
theorem redo_eq_cons (ed : RopeEditor) (a : EditorAction) (rest : List EditorAction)
    (h : ed.redo_stack = a :: rest) :
    redo ed =
      ({ ed with
          rope := redo_rope ed.rope a,
          cursor := a.cursor_after,
          redo_stack := rest,
          undo_stack := a :: ed.undo_stack,
          is_modified := true }, true) := by
  unfold redo
  rw [h]

/-- Unfolding `redo` when the redo stack is empty. -/
theorem redo_eq_nil (ed : RopeEditor) (h : ed.redo_stack = []) :
    redo ed = (ed, false) := by
  unfold redo
  rw [h]

/-- Draining a well-formed history stack restores the original buffer and
cursor, empties the undo stack and moves the whole stack, reversed, onto the
redo stack. -/
theorem undo_upto_spec : ∀ (stk : List EditorAction) (ed : RopeEditor)
    (s0 : List Char × CursorPosition),
    ed.undo_stack = stk → Hist stk s0 (ed.rope, ed.cursor) →
    (undo_upto ed stk.length).rope = s0.1 ∧
    (undo_upto ed stk.length).cursor = s0.2 ∧
    (undo_upto ed stk.length).undo_stack = [] ∧
    (undo_upto ed stk.length).redo_stack = stk.reverse ++ ed.redo_stack := by
  intro stk
  induction stk with
  | nil =>
    intro ed s0 hstk h
    simp only [Hist] at h
    simp only [List.length_nil, undo_upto, List.reverse_nil, List.nil_append]
    have h1 : ed.rope = s0.1 := congrArg Prod.fst h
    have h2 : ed.cursor = s0.2 := congrArg Prod.snd h
    exact ⟨h1, h2, hstk, trivial⟩
  | cons a rest ih =>
    intro ed s0 hstk h
    obtain ⟨h1, _h2, _h3⟩ := h
    rw [List.length_cons]
    rw [show undo_upto ed (rest.length + 1) =
      if (undo ed).2 then undo_upto (undo ed).1 rest.length else ed from rfl]
    rw [undo_eq_cons ed a rest hstk]
    simp only [if_true]
    have := ih { ed with
        rope := undo_rope ed.rope a,
        cursor := a.cursor_before,
        undo_stack := rest,
        redo_stack := a :: ed.redo_stack,
        is_modified := true } s0 rfl h1
    refine ⟨this.1, this.2.1, this.2.2.1, ?_⟩
    rw [this.2.2.2]
    simp [List.reverse_cons, List.append_assoc]

/-- Replaying a full well-formed redo stack reproduces the target buffer and
cursor. -/
theorem redo_n_spec : ∀ (stk : List EditorAction) (ed : RopeEditor)
    (t : List Char × CursorPosition),
    ed.redo_stack = stk → RedoSeg stk (ed.rope, ed.cursor) t →
    (redo_n ed stk.length).rope = t.1 ∧ (redo_n ed stk.length).cursor = t.2 := by
  intro stk
  induction stk with
  | nil =>
    intro ed t hstk h
    simp only [RedoSeg] at h
    simp only [List.length_nil, redo_n]
    exact ⟨congrArg Prod.fst h, congrArg Prod.snd h⟩
  | cons a rest ih =>
    intro ed t hstk h
    simp only [RedoSeg] at h
    rw [List.length_cons]
    rw [show redo_n ed (rest.length + 1) = redo_n (redo ed).1 rest.length from rfl]
    rw [redo_eq_cons ed a rest hstk]
    exact ih { ed with
        rope := redo_rope ed.rope a,
        cursor := a.cursor_after,
        redo_stack := rest,
        undo_stack := a :: ed.undo_stack,
        is_modified := true } t rfl h

/-- `insert_text` preserves history well-formedness: the pushed Insert action
undoes to the pre-insert state and redoes back to the post-insert state. -/
theorem insert_text_hist (ed : RopeEditor) (t : List Char) (s0 : List Char × CursorPosition)
    (h : Hist ed.undo_stack s0 (ed.rope, ed.cursor)) :
    Hist (insert_text ed t).undo_stack s0 ((insert_text ed t).rope, (insert_text ed t).cursor) := by
  unfold insert_text
  split
  case isTrue hc =>
    have hu := undo_rope_insert_action ed.rope t ed.cursor.byte_offset ed.cursor
      (cursor_from_offset (rope_insert ed.rope ed.cursor.byte_offset t)
        (ed.cursor.byte_offset + t.length)) hc.1
    have hr := redo_rope_insert_action ed.rope t ed.cursor.byte_offset ed.cursor
      (cursor_from_offset (rope_insert ed.rope ed.cursor.byte_offset t)
        (ed.cursor.byte_offset + t.length)) hc.1
    refine ⟨?_, ?_, rfl⟩
    · rw [show (({ ed with
          rope := rope_insert ed.rope ed.cursor.byte_offset t,
          is_modified := true,
          cursor := cursor_from_offset (rope_insert ed.rope ed.cursor.byte_offset t)
            (ed.cursor.byte_offset + t.length),
          undo_stack := _ :: ed.undo_stack,
          redo_stack := [] } : RopeEditor).rope) = rope_insert ed.rope ed.cursor.byte_offset t
        from rfl, hu]
      exact h
    · rw [show (({ ed with
          rope := rope_insert ed.rope ed.cursor.byte_offset t,
          is_modified := true,
          cursor := cursor_from_offset (rope_insert ed.rope ed.cursor.byte_offset t)
            (ed.cursor.byte_offset + t.length),
          undo_stack := _ :: ed.undo_stack,
          redo_stack := [] } : RopeEditor).rope) = rope_insert ed.rope ed.cursor.byte_offset t
        from rfl, hu, hr]
  case isFalse => exact h

/-- `delete_range` preserves history well-formedness: the pushed Delete
action undoes to the pre-delete state and redoes back to the post-delete
state. -/
theorem delete_range_hist (ed : RopeEditor) (s e : Nat) (s0 : List Char × CursorPosition)
    (h : Hist ed.undo_stack s0 (ed.rope, ed.cursor)) :
    Hist (delete_range ed s e).undo_stack s0
      ((delete_range ed s e).rope, (delete_range ed s e).cursor) := by
  unfold delete_range
  split
  case isTrue hc =>
    have hu := undo_rope_delete_action ed.rope s e ed.cursor
      (cursor_from_offset (rope_remove ed.rope s e) s) hc.1 hc.2
    have hr := redo_rope_delete_action ed.rope s e ed.cursor
      (cursor_from_offset (rope_remove ed.rope s e) s) hc.1 hc.2
    refine ⟨?_, ?_, rfl⟩
    · rw [show (({ ed with
          rope := rope_remove ed.rope s e,
          is_modified := true,
          cursor := cursor_from_offset (rope_remove ed.rope s e) s,
          undo_stack := _ :: ed.undo_stack,
          redo_stack := [] } : RopeEditor).rope) = rope_remove ed.rope s e from rfl, hu]
      exact h
    · rw [show (({ ed with
          rope := rope_remove ed.rope s e,
          is_modified := true,
          cursor := cursor_from_offset (rope_remove ed.rope s e) s,
          undo_stack := _ :: ed.undo_stack,
          redo_stack := [] } : RopeEditor).rope) = rope_remove ed.rope s e from rfl, hu, hr]
  case isFalse => exact h

/-- A primitive edit call preserves history well-formedness. -/
theorem apply_edit_hist (ed : RopeEditor) (e : Edit) (s0 : List Char × CursorPosition)
    (h : Hist ed.undo_stack s0 (ed.rope, ed.cursor)) :
    Hist (apply_edit ed e).undo_stack s0 ((apply_edit ed e).rope, (apply_edit ed e).cursor) := by
  cases e with
  | ins t => exact insert_text_hist ed t s0 h
  | del s e => exact delete_range_hist ed s e s0 h

/-- A sequence of primitive edit calls preserves history well-formedness. -/
theorem apply_edits_hist : ∀ (edits : List Edit) (ed : RopeEditor)
    (s0 : List Char × CursorPosition),
    Hist ed.undo_stack s0 (ed.rope, ed.cursor) →
    Hist (apply_edits ed edits).undo_stack s0
      ((apply_edits ed edits).rope, (apply_edits ed edits).cursor) := by
  intro edits
  induction edits with
  | nil => intro ed s0 h; exact h
  | cons e rest ih =>
    intro ed s0 h
    rw [show apply_edits ed (e :: rest) = apply_edits (apply_edit ed e) rest from rfl]
    exact ih (apply_edit ed e) s0 (apply_edit_hist ed e s0 h)

/-- Primitive edit calls keep an empty redo stack empty. -/
theorem apply_edits_redo_nil : ∀ (edits : List Edit) (ed : RopeEditor),
    ed.redo_stack = [] → (apply_edits ed edits).redo_stack = [] := by
  intro edits
  induction edits with
  | nil => intro ed h; exact h
  | cons e rest ih =>
    intro ed h
    rw [show apply_edits ed (e :: rest) = apply_edits (apply_edit ed e) rest from rfl]
    refine ih (apply_edit ed e) ?_
    cases e with
    | ins t =>
      show (insert_text ed t).redo_stack = []
      unfold insert_text
      split
      · rfl
      · exact h
    | del s e =>
      show (delete_range ed s e).redo_stack = []
      unfold delete_range
      split
      · rfl
      · exact h

/-- Claim C1: for any sequence of `insert_text` and `delete_range` calls
applied to an initial buffer with empty undo/redo stacks, repeatedly calling
`undo` until it returns `false` restores the buffer content and the cursor
(line, column, offset) exactly to their initial values. -/
theorem undo_round_trip (init : RopeEditor) (edits : List Edit)
    (hu : init.undo_stack = []) (hr : init.redo_stack = []) :
    (undo_all (apply_edits init edits)).rope = init.rope ∧
    (undo_all (apply_edits init edits)).cursor = init.cursor ∧
    (undo (undo_all (apply_edits init edits))).2 = false := by
  have h0 : Hist init.undo_stack (init.rope, init.cursor) (init.rope, init.cursor) := by
    rw [hu]
    rfl
  have h := apply_edits_hist edits init (init.rope, init.cursor) h0
  have hs := undo_upto_spec (apply_edits init edits).undo_stack (apply_edits init edits)
    (init.rope, init.cursor) rfl h
  refine ⟨hs.1, hs.2.1, ?_⟩
  have hemp : (undo_all (apply_edits init edits)).undo_stack = [] := hs.2.2.1
  rw [undo_eq_nil _ hemp]

/-- Witness for Claim C1 at a concrete editor and edit sequence. -/
theorem undo_round_trip_witness :
    (undo_all (apply_edits (mk_editor (String.toList "hello") 2)
        [Edit.ins (String.toList "ab"), Edit.del 1 4])).rope =
      (mk_editor (String.toList "hello") 2).rope ∧
    (undo_all (apply_edits (mk_editor (String.toList "hello") 2)
        [Edit.ins (String.toList "ab"), Edit.del 1 4])).cursor =
      (mk_editor (String.toList "hello") 2).cursor ∧
    (undo (undo_all (apply_edits (mk_editor (String.toList "hello") 2)
        [Edit.ins (String.toList "ab"), Edit.del 1 4]))).2 = false :=
  undo_round_trip (mk_editor (String.toList "hello") 2)
    [Edit.ins (String.toList "ab"), Edit.del 1 4] rfl rfl

/-- Claim C2: after fully undoing a sequence of edits (one successful `undo`
per recorded action), calling `redo` that same number of times reproduces
exactly the content and cursor the buffer had immediately before the first
undo. -/
theorem redo_round_trip (init : RopeEditor) (edits : List Edit)
    (hu : init.undo_stack = []) (hr : init.redo_stack = []) :
    (redo_n (undo_all (apply_edits init edits))
        (apply_edits init edits).undo_stack.length).rope = (apply_edits init edits).rope ∧
    (redo_n (undo_all (apply_edits init edits))
        (apply_edits init edits).undo_stack.length).cursor = (apply_edits init edits).cursor := by
  have h0 : Hist init.undo_stack (init.rope, init.cursor) (init.rope, init.cursor) := by
    rw [hu]
    rfl
  have h := apply_edits_hist edits init (init.rope, init.cursor) h0
  have hredonil := apply_edits_redo_nil edits init hr
  have hs := undo_upto_spec (apply_edits init edits).undo_stack (apply_edits init edits)
    (init.rope, init.cursor) rfl h
  have hrstack : (undo_all (apply_edits init edits)).redo_stack =
      (apply_edits init edits).undo_stack.reverse := by
    have hx : (undo_all (apply_edits init edits)).redo_stack =
        (apply_edits init edits).undo_stack.reverse ++ (apply_edits init edits).redo_stack :=
      hs.2.2.2
    rw [hredonil] at hx
    simpa using hx
  have hseg : RedoSeg (apply_edits init edits).undo_stack.reverse
      ((undo_all (apply_edits init edits)).rope, (undo_all (apply_edits init edits)).cursor)
      ((apply_edits init edits).rope, (apply_edits init edits).cursor) := by
    have h1 : (undo_all (apply_edits init edits)).rope = init.rope := hs.1
    have h2 : (undo_all (apply_edits init edits)).cursor = init.cursor := hs.2.1
    rw [h1, h2]
    exact hist_redoseg _ _ _ h
  have hfin := redo_n_spec (apply_edits init edits).undo_stack.reverse
    (undo_all (apply_edits init edits))
    ((apply_edits init edits).rope, (apply_edits init edits).cursor) hrstack hseg
  rw [List.length_reverse] at hfin
  exact hfin

/-- Witness for Claim C2 at a concrete editor and edit sequence. -/
theorem redo_round_trip_witness :
    (redo_n (undo_all (apply_edits (mk_editor (String.toList "abc") 0)
        [Edit.ins (String.toList "xy"), Edit.del 0 1]))
        (apply_edits (mk_editor (String.toList "abc") 0)
          [Edit.ins (String.toList "xy"), Edit.del 0 1]).undo_stack.length).rope =
      (apply_edits (mk_editor (String.toList "abc") 0)
        [Edit.ins (String.toList "xy"), Edit.del 0 1]).rope ∧
    (redo_n (undo_all (apply_edits (mk_editor (String.toList "abc") 0)
        [Edit.ins (String.toList "xy"), Edit.del 0 1]))
        (apply_edits (mk_editor (String.toList "abc") 0)
          [Edit.ins (String.toList "xy"), Edit.del 0 1]).undo_stack.length).cursor =
      (apply_edits (mk_editor (String.toList "abc") 0)
        [Edit.ins (String.toList "xy"), Edit.del 0 1]).cursor :=
  redo_round_trip (mk_editor (String.toList "abc") 0)
    [Edit.ins (String.toList "xy"), Edit.del 0 1] rfl rfl

/-- `insert_text` either changes nothing at all or leaves an empty redo
stack. -/
theorem insert_text_cases (ed : RopeEditor) (t : List Char) :
    insert_text ed t = ed ∨ (insert_text ed t).redo_stack = [] := by
  unfold insert_text
  split
  · right
    rfl
  · left
    rfl

/-- `delete_range` either changes nothing at all or leaves an empty redo
stack. -/
theorem delete_range_cases (ed : RopeEditor) (s e : Nat) :
    delete_range ed s e = ed ∨ (delete_range ed s e).redo_stack = [] := by
  unfold delete_range
  split
  · right
    rfl
  · left
    rfl

/-- Claim C4: every successful mutator (insert, delete and their derived
forms) leaves the redo stack empty, while `undo`/`redo` never clear either
stack: a successful call moves exactly the popped action onto the opposite
stack, and an unsuccessful call changes nothing. -/
theorem stack_discipline (ed : RopeEditor) (t : List Char) (s e : Nat) :
    (insert_text ed t = ed ∨ (insert_text ed t).redo_stack = []) ∧
    (delete_range ed s e = ed ∨ (delete_range ed s e).redo_stack = []) ∧
    (backspace ed = ed ∨ (backspace ed).redo_stack = []) ∧
    (delete ed = ed ∨ (delete ed).redo_stack = []) ∧
    (insert_newline ed = ed ∨ (insert_newline ed).redo_stack = []) ∧
    (paste ed = ed ∨ (paste ed).redo_stack = []) ∧
    (∀ a rest, ed.undo_stack = a :: rest →
      (undo ed).2 = true ∧ (undo ed).1.undo_stack = rest ∧
      (undo ed).1.redo_stack = a :: ed.redo_stack) ∧
    (ed.undo_stack = [] → undo ed = (ed, false)) ∧
    (∀ a rest, ed.redo_stack = a :: rest →
      (redo ed).2 = true ∧ (redo ed).1.redo_stack = rest ∧
      (redo ed).1.undo_stack = a :: ed.undo_stack) ∧
    (ed.redo_stack = [] → redo ed = (ed, false)) := by
  refine ⟨insert_text_cases ed t, delete_range_cases ed s e, ?_, ?_,
    insert_text_cases ed ['\n'], ?_, ?_, fun h => undo_eq_nil ed h, ?_,
    fun h => redo_eq_nil ed h⟩
  · unfold backspace
    split
    · exact delete_range_cases ed _ _
    · left
      rfl
  · unfold delete
    split
    · exact delete_range_cases ed _ _
    · left
      rfl
  · unfold paste
    split
    · exact insert_text_cases ed _
    · left
      rfl
  · intro a rest h
    rw [undo_eq_cons ed a rest h]
    exact ⟨rfl, rfl, rfl⟩
  · intro a rest h
    rw [redo_eq_cons ed a rest h]
    exact ⟨rfl, rfl, rfl⟩

/-- A sample recorded action, for concrete witnesses. -/
def sample_action : EditorAction :=
  { action_type := ActionType.Insert, position := 0, text := String.toList "x",
    cursor_before := { line := 0, column := 0, byte_offset := 0 },
    cursor_after := { line := 0, column := 1, byte_offset := 1 } }

/-- A sample editor whose stacks are both non-empty, for concrete
witnesses. -/
def sample_editor : RopeEditor :=
  { rope := String.toList "xab", file_path := [], is_modified := true,
    cursor := { line := 0, column := 1, byte_offset := 1 },
    undo_stack := [sample_action], redo_stack := [sample_action],
    clipboard := [] }

/-- Witness for Claim C4 at a concrete editor. -/
theorem stack_discipline_witness :
    (insert_text sample_editor (String.toList "q") = sample_editor ∨
      (insert_text sample_editor (String.toList "q")).redo_stack = []) ∧
    (undo sample_editor).2 = true ∧
    (undo sample_editor).1.undo_stack = [] ∧
    (undo sample_editor).1.redo_stack = sample_action :: sample_editor.redo_stack ∧
    (redo sample_editor).2 = true ∧
    (redo sample_editor).1.undo_stack = sample_action :: sample_editor.undo_stack := by
  have h := stack_discipline sample_editor (String.toList "q") 0 1
  have hu := h.2.2.2.2.2.2.1 sample_action [] rfl
  have hr := h.2.2.2.2.2.2.2.2.1 sample_action [] rfl
  exact ⟨h.1, hu.1, hu.2.1, hu.2.2, hr.1, hr.2.2⟩

/-- Claim C5: `insert_text` is a no-op on empty text or an out-of-range
cursor offset; otherwise it splices the text in at the cursor offset, sets
the modified flag, advances the cursor offset to the end of the inserted
text, pushes the matching Insert action and clears the redo stack; on
Scenario A it produces "hello there\nworld" with the cursor at (0, 11). -/
theorem insert_text_spec (ed : RopeEditor) (t : List Char) :
    (t = [] → insert_text ed t = ed) ∧
    (ed.rope.length < ed.cursor.byte_offset → insert_text ed t = ed) ∧
    (t ≠ [] → ed.cursor.byte_offset ≤ ed.rope.length →
      (insert_text ed t).rope =
        ed.rope.take ed.cursor.byte_offset ++ t ++ ed.rope.drop ed.cursor.byte_offset ∧
      (insert_text ed t).is_modified = true ∧
      (insert_text ed t).cursor.byte_offset = ed.cursor.byte_offset + t.length ∧
      (insert_text ed t).undo_stack =
        { action_type := ActionType.Insert, position := ed.cursor.byte_offset, text := t,
          cursor_before := ed.cursor,
          cursor_after := (insert_text ed t).cursor } :: ed.undo_stack ∧
      (insert_text ed t).redo_stack = []) ∧
    ((insert_text (mk_editor (String.toList "hello\nworld") 5) (String.toList " there")).rope =
        String.toList "hello there\nworld" ∧
      (insert_text (mk_editor (String.toList "hello\nworld") 5) (String.toList " there")).cursor.line = 0 ∧
      (insert_text (mk_editor (String.toList "hello\nworld") 5) (String.toList " there")).cursor.column = 11) := by
  refine ⟨?_, ?_, ?_, by decide⟩
  · intro h
    have hn : ¬(ed.cursor.byte_offset ≤ ed.rope.length ∧ t ≠ []) := fun hc => hc.2 h
    unfold insert_text
    rw [if_neg hn]
  · intro h
    have hn : ¬(ed.cursor.byte_offset ≤ ed.rope.length ∧ t ≠ []) := fun hc =>
      absurd hc.1 (Nat.not_le.mpr h)
    unfold insert_text
    rw [if_neg hn]
  · intro ht hp
    have hcond : ed.cursor.byte_offset ≤ ed.rope.length ∧ t ≠ [] := ⟨hp, ht⟩
    unfold insert_text
    rw [if_pos hcond]
    refine ⟨rfl, rfl, ?_, rfl, rfl⟩
    show (cursor_from_offset (rope_insert ed.rope ed.cursor.byte_offset t)
        (ed.cursor.byte_offset + t.length)).byte_offset = ed.cursor.byte_offset + t.length
    unfold cursor_from_offset
    rw [rope_insert_length ed.rope t ed.cursor.byte_offset hp]
    exact Nat.min_eq_left (by omega)

/-- Witness for Claim C5 at the Scenario A input. -/
theorem insert_text_spec_witness :
    (insert_text (mk_editor (String.toList "hello\nworld") 5) (String.toList " there")).is_modified = true ∧
    (insert_text (mk_editor (String.toList "hello\nworld") 5) (String.toList " there")).cursor.byte_offset = 5 + (String.toList " there").length := by
  have h := insert_text_spec (mk_editor (String.toList "hello\nworld") 5) (String.toList " there")
  have hc := h.2.2.1 (by decide) (by decide)
  exact ⟨hc.2.1, hc.2.2.1⟩

/-- Claim C6: boundary operations are silent no-ops that leave the whole
editor state unchanged: backspace on an empty buffer or at offset 0, delete
at end-of-buffer, and paste with an empty clipboard. -/
theorem boundary_noops (ed : RopeEditor) :
    (ed.rope = [] → backspace ed = ed) ∧
    (ed.cursor.byte_offset = 0 → backspace ed = ed) ∧
    (ed.cursor.byte_offset = ed.rope.length → delete ed = ed) ∧
    (ed.clipboard = [] → paste ed = ed) := by
  refine ⟨?_, ?_, ?_, ?_⟩
  · intro h
    unfold backspace
    split
    case isTrue hpos =>
      have hn : ¬(ed.cursor.byte_offset - 1 < ed.cursor.byte_offset ∧
          ed.cursor.byte_offset ≤ ed.rope.length) := by
        rw [h]
        intro hc
        have := hc.2
        simp at this
        omega
      unfold delete_range
      rw [if_neg hn]
    case isFalse => rfl
  · intro h
    have hn : ¬ 0 < ed.cursor.byte_offset := by omega
    unfold backspace
    rw [if_neg hn]
  · intro h
    have hn : ¬ ed.cursor.byte_offset < ed.rope.length := by omega
    unfold delete
    rw [if_neg hn]
  · intro h
    have hn : ¬ ed.clipboard ≠ [] := fun hc => hc h
    unfold paste
    rw [if_neg hn]

/-- Witness for Claim C6 at concrete editors. -/
theorem boundary_noops_witness :
    backspace (mk_editor [] 0) = mk_editor [] 0 ∧
    backspace (mk_editor (String.toList "ab") 0) = mk_editor (String.toList "ab") 0 ∧
    delete (mk_editor (String.toList "ab") 2) = mk_editor (String.toList "ab") 2 ∧
    paste (mk_editor (String.toList "ab") 1) = mk_editor (String.toList "ab") 1 :=
  ⟨(boundary_noops (mk_editor [] 0)).1 (by decide),
   (boundary_noops (mk_editor (String.toList "ab") 0)).2.1 (by decide),
   (boundary_noops (mk_editor (String.toList "ab") 2)).2.2.1 (by decide),
   (boundary_noops (mk_editor (String.toList "ab") 1)).2.2.2 (by decide)⟩

/-- A single `undo` call never clears an already-set modified flag. -/
theorem undo_keeps_modified (ed : RopeEditor) (h : ed.is_modified = true) :
    (undo ed).1.is_modified = true := by
  cases hstk : ed.undo_stack with
  | nil =>
    rw [undo_eq_nil ed hstk]
    exact h
  | cons a rest =>
    rw [undo_eq_cons ed a rest hstk]

/-- A single `redo` call never clears an already-set modified flag. -/
theorem redo_keeps_modified (ed : RopeEditor) (h : ed.is_modified = true) :
    (redo ed).1.is_modified = true := by
  cases hstk : ed.redo_stack with
  | nil =>
    rw [redo_eq_nil ed hstk]
    exact h
  | cons a rest =>
    rw [redo_eq_cons ed a rest hstk]

/-- No sequence of `undo`/`redo` calls clears the modified flag. -/
theorem apply_urs_keeps_modified : ∀ (ops : List URCall) (ed : RopeEditor),
    ed.is_modified = true → (apply_urs ed ops).is_modified = true := by
  intro ops
  induction ops with
  | nil => intro ed h; exact h
  | cons op rest ih =>
    intro ed h
    cases op with
    | u => exact ih _ (undo_keeps_modified ed h)
    | r => exact ih _ (redo_keeps_modified ed h)

/-- Draining undo calls never clears an already-set modified flag. -/
theorem undo_upto_keeps_modified : ∀ (n : Nat) (ed : RopeEditor),
    ed.is_modified = true → (undo_upto ed n).is_modified = true := by
  intro n
  induction n with
  | zero => intro ed h; exact h
  | succ m ih =>
    intro ed h
    rw [show undo_upto ed (m + 1) =
      if (undo ed).2 then undo_upto (undo ed).1 m else ed from rfl]
    split
    · exact ih _ (undo_keeps_modified ed h)
    · exact h

/-- A full undo of a non-empty history ends with the modified flag set. -/
theorem undo_all_sets_modified (ed : RopeEditor) (h : ed.undo_stack ≠ []) :
    (undo_all ed).is_modified = true := by
  unfold undo_all
  cases hstk : ed.undo_stack with
  | nil => exact absurd hstk h
  | cons a rest =>
    rw [List.length_cons]
    rw [show undo_upto ed (rest.length + 1) =
      if (undo ed).2 then undo_upto (undo ed).1 rest.length else ed from rfl]
    rw [undo_eq_cons ed a rest hstk]
    exact undo_upto_keeps_modified rest.length _ rfl

/-- Claim C9: every successful `undo` or `redo` sets the modified flag
unconditionally; no sequence of undo/redo calls ever clears it, and in
particular the flag is still set after fully undoing every edit. -/
theorem undo_redo_set_modified (ed : RopeEditor) (ops : List URCall) :
    ((undo ed).2 = true → (undo ed).1.is_modified = true) ∧
    ((redo ed).2 = true → (redo ed).1.is_modified = true) ∧
    (ed.is_modified = true → (apply_urs ed ops).is_modified = true) ∧
    (ed.undo_stack ≠ [] → (undo_all ed).is_modified = true) := by
  refine ⟨?_, ?_, fun h => apply_urs_keeps_modified ops ed h,
    fun h => undo_all_sets_modified ed h⟩
  · intro h
    cases hstk : ed.undo_stack with
    | nil =>
      rw [undo_eq_nil ed hstk] at h
      exact absurd h (by simp)
    | cons a rest => rw [undo_eq_cons ed a rest hstk]
  · intro h
    cases hstk : ed.redo_stack with
    | nil =>
      rw [redo_eq_nil ed hstk] at h
      exact absurd h (by simp)
    | cons a rest => rw [redo_eq_cons ed a rest hstk]

/-- Witness for Claim C9 at a concrete edited buffer. -/
theorem undo_redo_set_modified_witness :
    (undo (insert_text (mk_editor (String.toList "ab") 0) (String.toList "x"))).1.is_modified = true ∧
    (apply_urs (insert_text (mk_editor (String.toList "ab") 0) (String.toList "x"))
      [URCall.u, URCall.r]).is_modified = true ∧
    (undo_all (insert_text (mk_editor (String.toList "ab") 0) (String.toList "x"))).is_modified = true := by
  have h := undo_redo_set_modified
    (insert_text (mk_editor (String.toList "ab") 0) (String.toList "x")) [URCall.u, URCall.r]
  exact ⟨h.1 (by decide), h.2.2.1 (by decide), h.2.2.2 (by decide)⟩

/-- Line 0 always starts at character index 0. -/
theorem line_to_char_zero (r : List Char) : line_to_char r 0 = 0 := by
  cases r <;> rfl

/-- Recursion of `line_to_char` past a leading newline. -/
theorem line_to_char_cons_nl (rest : List Char) (i : Nat) :
    line_to_char ('\n' :: rest) (i + 1) = 1 + line_to_char rest i := by
  rw [show line_to_char ('\n' :: rest) (i + 1) =
    if '\n' = '\n' then 1 + line_to_char rest i else 1 + line_to_char rest (i + 1) from rfl]
  rw [if_pos rfl]

/-- Recursion of `line_to_char` past a leading non-newline character. -/
theorem line_to_char_cons_not_nl (c : Char) (rest : List Char) (i : Nat) (hc : c ≠ '\n') :
    line_to_char (c :: rest) (i + 1) = 1 + line_to_char rest (i + 1) := by
  rw [show line_to_char (c :: rest) (i + 1) =
    if c = '\n' then 1 + line_to_char rest i else 1 + line_to_char rest (i + 1) from rfl]
  rw [if_neg hc]

/-- `len_lines` grows by one across a leading newline. -/
theorem len_lines_cons_nl (rest : List Char) : len_lines ('\n' :: rest) = len_lines rest + 1 := by
  unfold len_lines
  rw [List.countP_cons]
  simp [is_nl]

/-- `len_lines` is unchanged across a leading non-newline character. -/
theorem len_lines_cons_not_nl (c : Char) (rest : List Char) (hc : c ≠ '\n') :
    len_lines (c :: rest) = len_lines rest := by
  unfold len_lines
  rw [List.countP_cons]
  simp [is_nl, hc]

/-- `take_line` of a list headed by a newline. -/
theorem take_line_cons_nl (rest : List Char) : take_line ('\n' :: rest) = ['\n'] := by
  unfold take_line
  rw [if_pos rfl]

/-- `take_line` of a list headed by a non-newline character. -/
theorem take_line_cons_not_nl (c : Char) (rest : List Char) (hc : c ≠ '\n') :
    take_line (c :: rest) = c :: take_line rest := by
  rw [show take_line (c :: rest) = if c = '\n' then [c] else c :: take_line rest from rfl]
  rw [if_neg hc]

/-- Line 0 of a rope is its first newline-terminated prefix. -/
theorem rope_line_zero (r : List Char) : rope_line r 0 = take_line r := by
  unfold rope_line
  rw [line_to_char_zero, List.drop_zero]

/-- Lines after a leading newline shift down by one index. -/
theorem rope_line_cons_nl (rest : List Char) (i : Nat) :
    rope_line ('\n' :: rest) (i + 1) = rope_line rest i := by
  unfold rope_line
  rw [line_to_char_cons_nl]
  rw [show 1 + line_to_char rest i = line_to_char rest i + 1 from by omega]
  rfl

/-- Lines past a leading non-newline character keep their index in the
tail. -/
theorem rope_line_cons_not_nl (c : Char) (rest : List Char) (i : Nat) (hc : c ≠ '\n') :
    rope_line (c :: rest) (i + 1) = rope_line rest (i + 1) := by
  unfold rope_line
  rw [line_to_char_cons_not_nl c rest i hc]
  rw [show 1 + line_to_char rest (i + 1) = line_to_char rest (i + 1) + 1 from by omega]
  rfl

/-- `take_line` never returns the empty list on a non-empty input. -/
theorem take_line_ne_nil (c : Char) (rest : List Char) : take_line (c :: rest) ≠ [] := by
  unfold take_line
  split <;> simp

/-- When the input holds a newline, `take_line` ends with it. -/
theorem take_line_ends_nl : ∀ (l : List Char), 0 < l.countP is_nl →
    ends_with_nl (take_line l) = true := by
  intro l
  induction l with
  | nil => intro h; simp [List.countP_nil] at h
  | cons c rest ih =>
    intro h
    by_cases hc : c = '\n'
    · rw [hc, take_line_cons_nl]
      rfl
    · rw [take_line_cons_not_nl c rest hc]
      have hcnt : 0 < rest.countP is_nl := by
        rw [List.countP_cons] at h
        simpa [is_nl, hc] using h
      cases rest with
      | nil => simp [List.countP_nil] at hcnt
      | cons d ds =>
        have hih := ih hcnt
        obtain ⟨y, ys, hy⟩ := List.exists_cons_of_ne_nil (take_line_ne_nil d ds)
        unfold ends_with_nl at hih ⊢
        rw [hy] at hih ⊢
        rw [List.getLast?_cons_cons]
        exact hih

/-- Every non-final line of a rope ends with a newline. -/
theorem rope_line_ends_nl : ∀ (r : List Char) (i : Nat), i + 1 < len_lines r →
    ends_with_nl (rope_line r i) = true := by
  intro r
  induction r with
  | nil =>
    intro i h
    unfold len_lines at h
    simp [List.countP_nil] at h
  | cons c rest ih =>
    intro i h
    cases i with
    | zero =>
      have hcnt : 0 < (c :: rest).countP is_nl := by
        unfold len_lines at h
        omega
      rw [rope_line_zero]
      exact take_line_ends_nl _ hcnt
    | succ j =>
      by_cases hc : c = '\n'
      · rw [hc, rope_line_cons_nl]
        apply ih
        rw [hc, len_lines_cons_nl] at h
        omega
      · rw [rope_line_cons_not_nl c rest j hc]
        apply ih
        rw [len_lines_cons_not_nl c rest hc] at h
        exact h

/-- A line without a trailing newline is the final line. -/
theorem rope_line_not_nl_last (r : List Char) (i : Nat) (hi : i < len_lines r)
    (h : ends_with_nl (rope_line r i) = false) : i + 1 = len_lines r := by
  rcases Nat.lt_or_ge (i + 1) (len_lines r) with hlt | hge
  · rw [rope_line_ends_nl r i hlt] at h
    cases h
  · omega

/-- Claim C3 counterexample: on the two-line buffer "a\nb" (line count 2),
`set_cursor(5, 0)` does not move the cursor to the last line (index 1); the
call is a no-op and the cursor stays on line 0. -/
theorem set_cursor_out_of_range_cex :
    line_count (mk_editor (String.toList "a\nb") 0) = 2 ∧
    (set_cursor (mk_editor (String.toList "a\nb") 0) 5 0).cursor.line = 0 ∧
    ¬ (set_cursor (mk_editor (String.toList "a\nb") 0) 5 0).cursor.line =
        line_count (mk_editor (String.toList "a\nb") 0) - 1 := by
  decide

/-- Claim C3 (amended): `set_cursor(line, column)` is a complete no-op when
`line >= line_count` (the cursor is not moved to the last line); for an
in-range line it keeps the line, clamps the column so that on a line with a
trailing newline the maximum column is `line_length - 1`, allows
`column == line_length` only on a final line without a trailing newline, and
recomputes the offset as the line start plus the clamped column. -/
theorem set_cursor_clamp (ed : RopeEditor) (line column : Nat) :
    (len_lines ed.rope ≤ line → set_cursor ed line column = ed) ∧
    (line < len_lines ed.rope →
      (set_cursor ed line column).cursor.line = line ∧
      (set_cursor ed line column).cursor.column ≤ (rope_line ed.rope line).length ∧
      (ends_with_nl (rope_line ed.rope line) = true →
        (set_cursor ed line column).cursor.column < (rope_line ed.rope line).length) ∧
      ((set_cursor ed line column).cursor.column = (rope_line ed.rope line).length →
        ends_with_nl (rope_line ed.rope line) = false ∧ line + 1 = len_lines ed.rope) ∧
      (column ≤ (rope_line ed.rope line).length - 1 →
        0 < (rope_line ed.rope line).length →
        (set_cursor ed line column).cursor.column = column) ∧
      (set_cursor ed line column).cursor.byte_offset =
        line_to_char ed.rope line + (set_cursor ed line column).cursor.column) := by
  constructor
  · intro h
    unfold set_cursor
    rw [if_neg (by omega)]
  · intro h
    unfold set_cursor
    rw [if_pos h]
    refine ⟨rfl, ?_, ?_, ?_, ?_, rfl⟩
    · show (if (rope_line ed.rope line).length = 0 then 0
          else if ends_with_nl (rope_line ed.rope line) then
            min column ((rope_line ed.rope line).length - 1)
          else min column (rope_line ed.rope line).length) ≤ (rope_line ed.rope line).length
      split
      · omega
      · split <;> omega
    · intro hnl
      have hlen : (rope_line ed.rope line).length ≠ 0 := by
        intro h0
        rw [List.length_eq_zero.mp h0] at hnl
        cases hnl
      show (if (rope_line ed.rope line).length = 0 then 0
          else if ends_with_nl (rope_line ed.rope line) then
            min column ((rope_line ed.rope line).length - 1)
          else min column (rope_line ed.rope line).length) < (rope_line ed.rope line).length
      rw [if_neg hlen, if_pos hnl]
      omega
    · intro hcol
      by_cases hlen : (rope_line ed.rope line).length = 0
      · have hnl : ends_with_nl (rope_line ed.rope line) = false := by
          rw [List.length_eq_zero.mp hlen]
          rfl
        exact ⟨hnl, rope_line_not_nl_last ed.rope line h hnl⟩
      · by_cases hnl : ends_with_nl (rope_line ed.rope line) = true
        · exfalso
          dsimp only at hcol
          rw [if_neg hlen, if_pos hnl] at hcol
          omega
        · have hnl' : ends_with_nl (rope_line ed.rope line) = false :=
            Bool.eq_false_iff.mpr hnl
          exact ⟨hnl', rope_line_not_nl_last ed.rope line h hnl'⟩
    · intro hle hpos
      show (if (rope_line ed.rope line).length = 0 then 0
          else if ends_with_nl (rope_line ed.rope line) then
            min column ((rope_line ed.rope line).length - 1)
          else min column (rope_line ed.rope line).length) = column
      rw [if_neg (by omega)]
      split <;> omega

/-- Witness for Claim C3 at concrete calls. -/
theorem set_cursor_clamp_witness :
    set_cursor (mk_editor (String.toList "a\nb") 0) 7 3 = mk_editor (String.toList "a\nb") 0 ∧
    (set_cursor (mk_editor (String.toList "a\nb") 0) 0 99).cursor.line = 0 ∧
    (set_cursor (mk_editor (String.toList "a\nb") 0) 0 99).cursor.column <
      (rope_line (String.toList "a\nb") 0).length := by
  have h1 := (set_cursor_clamp (mk_editor (String.toList "a\nb") 0) 7 3).1 (by decide)
  have h2 := (set_cursor_clamp (mk_editor (String.toList "a\nb") 0) 0 99).2 (by decide)
  exact ⟨h1, h2.1, h2.2.2.1 (by decide)⟩

/-- `take_line` returns a prefix of its input. -/
theorem take_line_prefix : ∀ (l : List Char), l.take (take_line l).length = take_line l := by
  intro l
  induction l with
  | nil => rfl
  | cons c rest ih =>
    by_cases hc : c = '\n'
    · rw [hc, take_line_cons_nl]
      rfl
    · rw [take_line_cons_not_nl c rest hc, List.length_cons, List.take_succ_cons, ih]

/-- On newline-free input, `take_line` returns the whole input. -/
theorem take_line_of_no_nl : ∀ (l : List Char), l.countP is_nl = 0 → take_line l = l := by
  intro l
  induction l with
  | nil => intro _; rfl
  | cons c rest ih =>
    intro h
    rw [List.countP_cons] at h
    have hc : c ≠ '\n' := by
      intro hc
      rw [hc] at h
      simp [is_nl] at h
    rw [take_line_cons_not_nl c rest hc]
    rw [ih (by simpa [is_nl, hc] using h)]

/-- The start of line index `i + 1` is the start of line `i` plus the length
of line `i`, for every non-final line. -/
theorem line_to_char_succ : ∀ (r : List Char) (i : Nat), i + 1 < len_lines r →
    line_to_char r (i + 1) = line_to_char r i + (rope_line r i).length := by
  intro r
  induction r with
  | nil =>
    intro i h
    unfold len_lines at h
    simp [List.countP_nil] at h
  | cons c rest ih =>
    intro i h
    cases i with
    | zero =>
      rw [line_to_char_zero, rope_line_zero]
      by_cases hc : c = '\n'
      · rw [hc, line_to_char_cons_nl, line_to_char_zero, take_line_cons_nl]
        rfl
      · rw [line_to_char_cons_not_nl c rest 0 hc, take_line_cons_not_nl c rest hc,
          List.length_cons]
        have hcnt : 0 + 1 < len_lines rest := by
          rw [len_lines_cons_not_nl c rest hc] at h
          omega
        have hr := ih 0 hcnt
        rw [line_to_char_zero, rope_line_zero] at hr
        omega
    | succ j =>
      by_cases hc : c = '\n'
      · rw [hc, line_to_char_cons_nl, line_to_char_cons_nl, rope_line_cons_nl]
        have hcnt : j + 1 < len_lines rest := by
          rw [hc, len_lines_cons_nl] at h
          omega
        have hr := ih j hcnt
        omega
      · rw [line_to_char_cons_not_nl c rest (j + 1) hc, line_to_char_cons_not_nl c rest j hc,
          rope_line_cons_not_nl c rest j hc]
        have hcnt : j + 1 + 1 < len_lines rest := by
          rw [len_lines_cons_not_nl c rest hc] at h
          exact h
        have hr := ih (j + 1) hcnt
        omega

/-- The start of any line lies within the buffer. -/
theorem line_to_char_le_length : ∀ (r : List Char) (i : Nat), line_to_char r i ≤ r.length := by
  intro r
  induction r with
  | nil =>
    intro i
    cases i <;> simp [line_to_char]
  | cons c rest ih =>
    intro i
    cases i with
    | zero => rw [line_to_char_zero]; omega
    | succ j =>
      by_cases hc : c = '\n'
      · rw [hc, line_to_char_cons_nl, List.length_cons]
        have := ih j
        omega
      · rw [line_to_char_cons_not_nl c rest j hc, List.length_cons]
        have := ih (j + 1)
        omega

/-- The tail of the buffer from the start of its final line holds no
newline. -/
theorem count_drop_last : ∀ (r : List Char),
    (r.drop (line_to_char r (r.countP is_nl))).countP is_nl = 0 := by
  intro r
  induction r with
  | nil => rfl
  | cons c rest ih =>
    by_cases hc : c = '\n'
    · rw [hc]
      rw [show ('\n' :: rest).countP is_nl = rest.countP is_nl + 1 from by
        rw [List.countP_cons]; simp [is_nl]]
      rw [line_to_char_cons_nl]
      rw [show 1 + line_to_char rest (rest.countP is_nl) =
        line_to_char rest (rest.countP is_nl) + 1 from by omega]
      rw [List.drop_succ_cons]
      exact ih
    · rw [show (c :: rest).countP is_nl = rest.countP is_nl from by
        rw [List.countP_cons]; simp [is_nl, hc]]
      cases hcnt : rest.countP is_nl with
      | zero =>
        rw [line_to_char_zero, List.drop_zero, List.countP_cons]
        rw [hcnt] at ih ⊢
        rw [line_to_char_zero, List.drop_zero] at ih
        simp [is_nl, hc, ih]
      | succ m =>
        rw [line_to_char_cons_not_nl c rest m hc]
        rw [show 1 + line_to_char rest (m + 1) = line_to_char rest (m + 1) + 1 from by omega]
        rw [List.drop_succ_cons]
        rw [hcnt] at ih
        exact ih

/-- The clipboard range computed by `copy_line` is exactly the cursor's
line. -/
theorem copy_line_slice (r : List Char) (i : Nat) (hi : i < len_lines r) :
    rope_slice r (line_to_char r i)
      (if i + 1 < len_lines r then line_to_char r (i + 1) else r.length) = rope_line r i := by
  by_cases h : i + 1 < len_lines r
  · rw [if_pos h]
    unfold rope_slice
    rw [line_to_char_succ r i h]
    rw [show line_to_char r i + (rope_line r i).length - line_to_char r i =
      (rope_line r i).length from by omega]
    unfold rope_line
    exact take_line_prefix (r.drop (line_to_char r i))
  · rw [if_neg h]
    have hi' : i = r.countP is_nl := by
      unfold len_lines at hi h
      omega
    unfold rope_slice
    rw [List.take_of_length_le (by rw [List.length_drop])]
    unfold rope_line
    refine (take_line_of_no_nl _ ?_).symm
    rw [hi']
    exact count_drop_last r

/-- The head of `dropWhile` never satisfies the dropped predicate. -/
theorem dropWhile_head_not (p : Char → Bool) : ∀ (l : List Char) (c : Char),
    (l.dropWhile p).head? = some c → p c = false := by
  intro l
  induction l with
  | nil => intro c h; simp [List.dropWhile] at h
  | cons a rest ih =>
    intro c h
    by_cases hp : p a = true
    · rw [List.dropWhile_cons, if_pos hp] at h
      exact ih c h
    · rw [List.dropWhile_cons, if_neg hp] at h
      simp at h
      rw [← h]
      exact Bool.eq_false_iff.mpr hp

/-- The result of `trim_line_end` never ends with a newline or carriage
return. -/
theorem trim_line_end_last (l : List Char) (c : Char)
    (h : (trim_line_end l).getLast? = some c) : c ≠ '\n' ∧ c ≠ '\r' := by
  unfold trim_line_end at h
  rw [List.getLast?_reverse] at h
  have hp := dropWhile_head_not (fun c => c == '\n' || c == '\r') l.reverse c h
  constructor
  · intro hc
    rw [hc] at hp
    simp at hp
  · intro hc
    rw [hc] at hp
    simp at hp

/-- Claim C10: `get_line(i)` returns, for every in-range index, the line's
text with all trailing newline/carriage-return characters stripped (so it
never ends in a line terminator) and `none` out of range, while `copy_line`
places the full current line, trailing newline included, into the
clipboard. -/
theorem get_line_copy_line_spec (ed : RopeEditor) (i : Nat) :
    (i < line_count ed →
      get_line ed i = some (trim_line_end (rope_line ed.rope i)) ∧
      ∀ c, (trim_line_end (rope_line ed.rope i)).getLast? = some c → c ≠ '\n' ∧ c ≠ '\r') ∧
    (line_count ed ≤ i → get_line ed i = none) ∧
    (ed.cursor.line < line_count ed →
      (copy_line ed).clipboard = rope_line ed.rope ed.cursor.line) ∧
    (ed.cursor.line + 1 < line_count ed →
      ends_with_nl ((copy_line ed).clipboard) = true) := by
  refine ⟨?_, ?_, ?_, ?_⟩
  · intro h
    have h' : i < len_lines ed.rope := h
    unfold get_line
    rw [if_pos h']
    exact ⟨rfl, fun c hc => trim_line_end_last _ c hc⟩
  · intro h
    have h' : len_lines ed.rope ≤ i := h
    unfold get_line
    rw [if_neg (Nat.not_lt.mpr h')]
  · intro h
    exact copy_line_slice ed.rope ed.cursor.line h
  · intro h
    have h1 : ed.cursor.line < len_lines ed.rope := by
      unfold line_count at h
      omega
    show ends_with_nl (rope_slice ed.rope (line_to_char ed.rope ed.cursor.line)
      (if ed.cursor.line + 1 < len_lines ed.rope
       then line_to_char ed.rope (ed.cursor.line + 1)
       else ed.rope.length)) = true
    rw [copy_line_slice ed.rope ed.cursor.line h1]
    exact rope_line_ends_nl ed.rope ed.cursor.line h

/-- Witness for Claim C10 at a concrete two-line buffer. -/
theorem get_line_copy_line_witness :
    get_line (mk_editor (String.toList "ab\ncd") 0) 0 = some (String.toList "ab") ∧
    get_line (mk_editor (String.toList "ab\ncd") 0) 2 = none ∧
    (copy_line (mk_editor (String.toList "ab\ncd") 0)).clipboard = String.toList "ab\n" := by
  have h0 := get_line_copy_line_spec (mk_editor (String.toList "ab\ncd") 0) 0
  have h2 := get_line_copy_line_spec (mk_editor (String.toList "ab\ncd") 0) 2
  refine ⟨?_, h2.2.1 (by decide), ?_⟩
  · rw [(h0.1 (by decide)).1]
    decide
  · rw [h0.2.2.1 (by decide)]
    decide
